import Mathlib

/-
Verification of the BEV (bird's-eye-view) rasterization, normalization and
compositing pipeline of the lane-assist-poc repository.

The embedding below follows the two implementations under scrutiny:
  * `tools/make_bev_intensity.py` : `rasterize_bev`, `normalize_intensity`
    and the composite accumulation loop in `main`;
  * `convert_laz_to_png.py` : the inline raster construction of
    `convert_laz_to_intensity_png`.
Real coordinates and intensities are modelled as rationals; NumPy integer
casts, `np.clip`, `np.percentile` (linear interpolation) and the final
`astype(np.uint8)` cast are modelled explicitly.  A Python exception is
modelled as `Option.none`.
-/

/-- Python `int()` applied to a real value: truncation toward zero. -/
def pyInt (q : ℚ) : ℤ := if 0 ≤ q then ⌊q⌋ else ⌈q⌉

/-- A LiDAR return: position and intensity (`points[:,0]`, `points[:,1]`,
`points[:,2]` and the aligned `intensities` entry).  Only `x`, `y` and
`intensity` are read by the rasterizer. -/
structure Pt where
  x : ℚ
  y : ℚ
  z : ℚ
  intensity : ℚ

/-- Run configuration of `rasterize_bev`: `extent = [xmin, xmax, ymin, ymax]`
plus the resolution in meters per pixel. -/
structure BevConfig where
  xmin : ℚ
  xmax : ℚ
  ymin : ℚ
  ymax : ℚ
  res : ℚ

/-- Grid width of `rasterize_bev`: `width = int((xmax - xmin) / resolution)`. -/
def bevWidth (cfg : BevConfig) : ℤ := pyInt ((cfg.xmax - cfg.xmin) / cfg.res)

/-- Grid height of `rasterize_bev`: `height = int((ymax - ymin) / resolution)`. -/
def bevHeight (cfg : BevConfig) : ℤ := pyInt ((cfg.ymax - cfg.ymin) / cfg.res)

/-- Raster width of `convert_laz_to_intensity_png`:
`width = int((x_max - x_min) / resolution) + 1`. -/
def lazWidth (xmin xmax res : ℚ) : ℤ := pyInt ((xmax - xmin) / res) + 1

/-- Raster height of `convert_laz_to_intensity_png`:
`height = int((y_max - y_min) / resolution) + 1`. -/
def lazHeight (ymin ymax res : ℚ) : ℤ := pyInt ((ymax - ymin) / res) + 1

/-- Extent filter of `rasterize_bev`:
`(x >= xmin) & (x < xmax) & (y >= ymin) & (y < ymax)`. -/
def inExtent (cfg : BevConfig) (p : Pt) : Bool :=
  decide (cfg.xmin ≤ p.x) && decide (p.x < cfg.xmax) &&
  decide (cfg.ymin ≤ p.y) && decide (p.y < cfg.ymax)

/-- NumPy `np.clip` on integers: `min (max v lo) hi`. -/
def npClip (v lo hi : ℤ) : ℤ := min (max v lo) hi

/-- Unclamped column index of `rasterize_bev`:
`pixel_x = ((valid_x - xmin) / resolution).astype(np.int32)`. -/
def rawPixelX (cfg : BevConfig) (p : Pt) : ℤ := pyInt ((p.x - cfg.xmin) / cfg.res)

/-- Unclamped row index of `rasterize_bev`:
`pixel_y = ((valid_y - ymin) / resolution).astype(np.int32)`. -/
def rawPixelY (cfg : BevConfig) (p : Pt) : ℤ := pyInt ((p.y - cfg.ymin) / cfg.res)

/-- Clamped column index: `pixel_x = np.clip(pixel_x, 0, width - 1)`. -/
def pixelX (cfg : BevConfig) (p : Pt) : ℤ := npClip (rawPixelX cfg p) 0 (bevWidth cfg - 1)

/-- Clamped row index: `pixel_y = np.clip(pixel_y, 0, height - 1)`. -/
def pixelY (cfg : BevConfig) (p : Pt) : ℤ := npClip (rawPixelY cfg p) 0 (bevHeight cfg - 1)

/-- Column index of `convert_laz_to_intensity_png`:
`px = ((x - x_min) / resolution).astype(int)`. -/
def lazPixelX (xmin res : ℚ) (p : Pt) : ℤ := pyInt ((p.x - xmin) / res)

/-- Row index of `convert_laz_to_intensity_png`:
`py = ((y_max - y) / resolution).astype(int)` (flipped vertical axis). -/
def lazPixelY (ymax res : ℚ) (p : Pt) : ℤ := pyInt ((ymax - p.y) / res)

/-- The `--reducer` choice of `make_bev_intensity.py`. -/
inductive Reducer
  | max
  | mean

/-- A float accumulation grid, indexed by (row, col) as `grid[py, px]`. -/
abbrev Grid := ℤ → ℤ → ℚ

/-- The `np.zeros((height, width))` initial accumulator. -/
def zeroGrid : Grid := fun _ _ => 0

/-- An integer count grid (`count_grid`). -/
abbrev CountGrid := ℤ → ℤ → ℕ

/-- One iteration of the per-point loop of `rasterize_bev`, updating the cell
`grid[py, px]` with the point's intensity through `op` (`max` for the max
reducer, `(+)` for the mean reducer's sum pass). -/
def updateCell (op : ℚ → ℚ → ℚ) (cfg : BevConfig) (g : Grid) (p : Pt) : Grid :=
  fun r c =>
    if pixelY cfg p = r ∧ pixelX cfg p = c then op (g r c) p.intensity else g r c

/-- One iteration of `count_grid[py, px] += 1`. -/
def stepCount (cfg : BevConfig) (g : CountGrid) (p : Pt) : CountGrid :=
  fun r c => if pixelY cfg p = r ∧ pixelX cfg p = c then g r c + 1 else g r c

/-- Shallow embedding of `rasterize_bev` (make_bev_intensity.py, lines
195-251): filter the points to the half-open extent, then fold the per-point
loop of the selected reducer over them; for the mean reducer, divide the sum
grid by the count grid wherever the count is positive. -/
def rasterize_bev (pts : List Pt) (cfg : BevConfig) (reducer : Reducer) : Grid :=
  let valid := pts.filter (fun p => inExtent cfg p)
  match reducer with
  | .max => valid.foldl (updateCell max cfg) zeroGrid
  | .mean =>
    let sums := valid.foldl (updateCell (· + ·) cfg) zeroGrid
    let counts := valid.foldl (stepCount cfg) (fun _ _ => 0)
    fun r c => if 0 < counts r c then sums r c / (counts r c : ℚ) else sums r c

/-- Intensities of the points of `l` that survive the extent filter and whose
(clamped) cell is `(r, c)`. -/
def cellHits (cfg : BevConfig) (r c : ℤ) (l : List Pt) : List ℚ :=
  ((l.filter (fun p => inExtent cfg p)).filter
      (fun p => decide (pixelY cfg p = r ∧ pixelX cfg p = c))).map Pt.intensity

-- ### Generic facts about the per-point folds

theorem foldl_updateCell (op : ℚ → ℚ → ℚ) (cfg : BevConfig) (l : List Pt)
    (g : Grid) (r c : ℤ) :
    (l.foldl (updateCell op cfg) g) r c =
      ((l.filter (fun p => decide (pixelY cfg p = r ∧ pixelX cfg p = c))).map
         Pt.intensity).foldl op (g r c) := by
  induction l generalizing g with
  | nil => rfl
  | cons p l ih =>
    rw [List.foldl_cons, ih]
    by_cases h : pixelY cfg p = r ∧ pixelX cfg p = c
    · simp [List.filter_cons, h, updateCell]
    · simp [List.filter_cons, h, updateCell]

theorem foldl_stepCount (cfg : BevConfig) (l : List Pt) (g : CountGrid)
    (r c : ℤ) :
    (l.foldl (stepCount cfg) g) r c =
      g r c +
        (l.filter (fun p => decide (pixelY cfg p = r ∧ pixelX cfg p = c))).length := by
  induction l generalizing g with
  | nil => rfl
  | cons p l ih =>
    rw [List.foldl_cons, ih]
    by_cases h : pixelY cfg p = r ∧ pixelX cfg p = c
    · simp [List.filter_cons, h, stepCount]
      omega
    · simp [List.filter_cons, h, stepCount]

theorem foldl_add_eq_sum (l : List ℚ) (a : ℚ) : l.foldl (· + ·) a = a + l.sum := by
  induction l generalizing a with
  | nil => simp
  | cons x l ih =>
    simp only [List.foldl_cons, ih, List.sum_cons]
    ring

theorem updateCell_right_comm (op : ℚ → ℚ → ℚ)
    (hop : ∀ x a b, op (op x a) b = op (op x b) a) (cfg : BevConfig)
    (g : Grid) (p q : Pt) :
    updateCell op cfg (updateCell op cfg g p) q =
      updateCell op cfg (updateCell op cfg g q) p := by
  funext r c
  by_cases hp : pixelY cfg p = r ∧ pixelX cfg p = c <;>
    by_cases hq : pixelY cfg q = r ∧ pixelX cfg q = c <;>
      simp [updateCell, hp, hq, hop]

-- ### Rasterization only depends on the in-extent point subsequence

theorem rasterize_bev_filter_congr (cfg : BevConfig) (red : Reducer)
    (l l' : List Pt)
    (h : l'.filter (fun p => inExtent cfg p) = l.filter (fun p => inExtent cfg p)) :
    rasterize_bev l' cfg red = rasterize_bev l cfg red := by
  cases red <;> simp only [rasterize_bev, h]

/-- C2: every point whose x or y lies outside the half-open extent
[xmin, xmax) × [ymin, ymax) is silently dropped by the extent filter of
`rasterize_bev`, and any two point lists with the same in-extent
subsequence — in particular lists differing only by permutation or
duplication of out-of-extent points — produce identical grids. -/
theorem c2_out_of_extent_irrelevant :
    (∀ (cfg : BevConfig) (p : Pt),
       inExtent cfg p = true ↔
         (cfg.xmin ≤ p.x ∧ p.x < cfg.xmax ∧ cfg.ymin ≤ p.y ∧ p.y < cfg.ymax)) ∧
    (∀ (cfg : BevConfig) (red : Reducer) (l : List Pt),
       rasterize_bev (l.filter (fun p => inExtent cfg p)) cfg red =
         rasterize_bev l cfg red) ∧
    (∀ (cfg : BevConfig) (red : Reducer) (l l' : List Pt),
       l'.filter (fun p => inExtent cfg p) = l.filter (fun p => inExtent cfg p) →
       rasterize_bev l' cfg red = rasterize_bev l cfg red) := by
  refine ⟨?_, ?_, ?_⟩
  · intro cfg p
    simp [inExtent, and_assoc]
  · intro cfg red l
    exact rasterize_bev_filter_congr cfg red l _ (by simp [List.filter_filter])
  · intro cfg red l l' h
    exact rasterize_bev_filter_congr cfg red l l' h

/-- Witness for C2: a list holding one in-extent and one out-of-extent point
produces the same grid as a list where the out-of-extent point is duplicated,
moved, and a second out-of-extent point is added. -/
theorem c2_out_of_extent_irrelevant_witness :
    rasterize_bev
        [⟨10, 10, 0, 7⟩, ⟨1/2, 1/2, 0, 5⟩, ⟨10, 10, 0, 7⟩, ⟨-3, 0, 0, 9⟩]
        ⟨0, 1, 0, 1, 1/5⟩ .max =
      rasterize_bev [⟨1/2, 1/2, 0, 5⟩, ⟨10, 10, 0, 7⟩] ⟨0, 1, 0, 1, 1/5⟩ .max := by
  refine c2_out_of_extent_irrelevant.2.2 ⟨0, 1, 0, 1, 1/5⟩ .max
    [⟨1/2, 1/2, 0, 5⟩, ⟨10, 10, 0, 7⟩]
    [⟨10, 10, 0, 7⟩, ⟨1/2, 1/2, 0, 5⟩, ⟨10, 10, 0, 7⟩, ⟨-3, 0, 0, 9⟩] ?_
  simp [inExtent]
  norm_num

/-- C1 (amended): for every valid configuration `rasterize_bev` computes
width = ⌊(xmax - xmin)/res⌋ and height = ⌊(ymax - ymin)/res⌋, while
`convert_laz_to_intensity_png` computes ⌊(xmax - xmin)/res⌋ + 1 and
⌊(ymax - ymin)/res⌋ + 1: the two implementations do not agree. -/
theorem c1_grid_dimensions (cfg : BevConfig) (hx : cfg.xmin < cfg.xmax)
    (hy : cfg.ymin < cfg.ymax) (hr : 0 < cfg.res) :
    bevWidth cfg = ⌊(cfg.xmax - cfg.xmin) / cfg.res⌋ ∧
    bevHeight cfg = ⌊(cfg.ymax - cfg.ymin) / cfg.res⌋ ∧
    lazWidth cfg.xmin cfg.xmax cfg.res = ⌊(cfg.xmax - cfg.xmin) / cfg.res⌋ + 1 ∧
    lazHeight cfg.ymin cfg.ymax cfg.res = ⌊(cfg.ymax - cfg.ymin) / cfg.res⌋ + 1 := by
  have hx' : (0:ℚ) ≤ (cfg.xmax - cfg.xmin) / cfg.res :=
    div_nonneg (by linarith) hr.le
  have hy' : (0:ℚ) ≤ (cfg.ymax - cfg.ymin) / cfg.res :=
    div_nonneg (by linarith) hr.le
  simp [bevWidth, bevHeight, lazWidth, lazHeight, pyInt, hx', hy']

/-- Witness for C1: the spec's example, extent (-80, 80, -80, 80) at
resolution 0.2, yields an 800 × 800 grid in `rasterize_bev`. -/
theorem c1_grid_dimensions_witness :
    bevWidth ⟨-80, 80, -80, 80, 1/5⟩ = 800 ∧
    bevHeight ⟨-80, 80, -80, 80, 1/5⟩ = 800 := by
  have h := c1_grid_dimensions ⟨-80, 80, -80, 80, 1/5⟩ (by norm_num)
    (by norm_num) (by norm_num)
  refine ⟨?_, ?_⟩
  · rw [h.1]; norm_num
  · rw [h.2.1]; norm_num

/-- Counterexample for C1: at extent (-80, 80, -80, 80) and resolution 0.2,
`rasterize_bev` makes the grid 800 pixels wide but the rasterizer of
`convert_laz_to_intensity_png` makes it 801 pixels wide, refuting the claim
that every implementation computes the same dimensions. -/
theorem c1_counterexample :
    bevWidth ⟨-80, 80, -80, 80, 1/5⟩ = 800 ∧
    lazWidth (-80) 80 (1/5) = 801 ∧
    lazWidth (-80) 80 (1/5) ≠ bevWidth ⟨-80, 80, -80, 80, 1/5⟩ := by
  have h1 : bevWidth ⟨-80, 80, -80, 80, 1/5⟩ = 800 := by
    norm_num [bevWidth, pyInt]
  have h2 : lazWidth (-80) 80 (1/5) = 801 := by
    norm_num [lazWidth, pyInt]
  exact ⟨h1, h2, by rw [h1, h2]; norm_num⟩

/-- C10: when the grid has at least one column and one row, the pixel indices
of every in-extent point are clamped into [0, width-1] × [0, height-1] before
`grid[py, px]` is written, so every grid access of `rasterize_bev` stays in
bounds; an in-extent point whose unclamped index reaches width (or height) —
possible when (xmax - xmin)/res is not an integer — is folded into the last
column (or row) instead of being dropped. -/
theorem c10_clamped_indices_in_bounds (cfg : BevConfig) (p : Pt)
    (hw : 1 ≤ bevWidth cfg) (hh : 1 ≤ bevHeight cfg)
    (_hin : inExtent cfg p = true) :
    (0 ≤ pixelX cfg p ∧ pixelX cfg p ≤ bevWidth cfg - 1 ∧
     0 ≤ pixelY cfg p ∧ pixelY cfg p ≤ bevHeight cfg - 1) ∧
    (bevWidth cfg ≤ rawPixelX cfg p → pixelX cfg p = bevWidth cfg - 1) ∧
    (bevHeight cfg ≤ rawPixelY cfg p → pixelY cfg p = bevHeight cfg - 1) := by
  simp only [pixelX, pixelY, npClip]
  omega

/-- Witness for C10: extent (0, 1, 0, 1) at resolution 0.4 gives a 2-wide grid
(⌊2.5⌋ = 2); the in-extent point x = y = 0.99 has unclamped index 2 = width,
and is clamped into the last column and row. -/
theorem c10_clamped_indices_in_bounds_witness :
    pixelX ⟨0, 1, 0, 1, 2/5⟩ ⟨99/100, 99/100, 0, 1⟩ =
        bevWidth ⟨0, 1, 0, 1, 2/5⟩ - 1 ∧
    pixelY ⟨0, 1, 0, 1, 2/5⟩ ⟨99/100, 99/100, 0, 1⟩ =
        bevHeight ⟨0, 1, 0, 1, 2/5⟩ - 1 := by
  have h := c10_clamped_indices_in_bounds ⟨0, 1, 0, 1, 2/5⟩ ⟨99/100, 99/100, 0, 1⟩
    (by norm_num [bevWidth, pyInt]) (by norm_num [bevHeight, pyInt])
    (by norm_num [inExtent])
  exact ⟨h.2.1 (by norm_num [bevWidth, rawPixelX, pyInt]),
         h.2.2 (by norm_num [bevHeight, rawPixelY, pyInt])⟩

/-- C9 (amended): the two rasterizers share the horizontal convention
col = ⌊(x - xmin)/res⌋, but their vertical conventions differ:
`rasterize_bev` maps y to row ⌊(y - ymin)/res⌋ while
`convert_laz_to_intensity_png` maps y to row ⌊(ymax - y)/res⌋, and for every
extent at least one resolution tall there is an in-extent point the two
implementations place in different rows. -/
theorem c9_axis_conventions (cfg : BevConfig) (hr : 0 < cfg.res) :
    (∀ p : Pt, lazPixelX cfg.xmin cfg.res p = rawPixelX cfg p) ∧
    (∀ p : Pt, inExtent cfg p = true →
       rawPixelY cfg p = ⌊(p.y - cfg.ymin) / cfg.res⌋ ∧
       lazPixelY cfg.ymax cfg.res p = ⌊(cfg.ymax - p.y) / cfg.res⌋) ∧
    (cfg.xmin < cfg.xmax → cfg.res ≤ cfg.ymax - cfg.ymin →
       ∃ q : Pt, inExtent cfg q = true ∧
         rawPixelY cfg q ≠ lazPixelY cfg.ymax cfg.res q) := by
  refine ⟨fun p => rfl, ?_, ?_⟩
  · intro p hp
    simp only [inExtent, Bool.and_eq_true, decide_eq_true_eq] at hp
    obtain ⟨⟨⟨hxl, hxu⟩, hyl⟩, hyu⟩ := hp
    have h1 : (0:ℚ) ≤ (p.y - cfg.ymin) / cfg.res :=
      div_nonneg (by linarith) hr.le
    have h2 : (0:ℚ) ≤ (cfg.ymax - p.y) / cfg.res :=
      div_nonneg (by linarith) hr.le
    simp [rawPixelY, lazPixelY, pyInt, h1, h2]
  · intro hx hy
    refine ⟨⟨cfg.xmin, cfg.ymin, 0, 0⟩, ?_, ?_⟩
    · simp only [inExtent, Bool.and_eq_true, decide_eq_true_eq]
      refine ⟨⟨⟨le_refl _, hx⟩, le_refl _⟩, by linarith⟩
    · have hzero : rawPixelY cfg ⟨cfg.xmin, cfg.ymin, 0, 0⟩ = 0 := by
        simp [rawPixelY, pyInt]
      have hone : 1 ≤ lazPixelY cfg.ymax cfg.res ⟨cfg.xmin, cfg.ymin, 0, 0⟩ := by
        have hq : (1:ℚ) ≤ (cfg.ymax - cfg.ymin) / cfg.res :=
          (le_div_iff₀ hr).mpr (by linarith)
        have : (1:ℤ) ≤ ⌊(cfg.ymax - cfg.ymin) / cfg.res⌋ := by
          exact_mod_cast Int.le_floor.mpr (by exact_mod_cast hq)
        simp only [lazPixelY, pyInt, if_pos (by linarith : (0:ℚ) ≤ (cfg.ymax - cfg.ymin) / cfg.res)]
        exact this
      omega

/-- Witness for C9: on extent (0, 2, 0, 2) at resolution 1 there is an
in-extent point placed in different rows by the two implementations. -/
theorem c9_axis_conventions_witness :
    ∃ q : Pt, inExtent ⟨0, 2, 0, 2, 1⟩ q = true ∧
      rawPixelY ⟨0, 2, 0, 2, 1⟩ q ≠ lazPixelY 2 1 q := by
  exact (c9_axis_conventions ⟨0, 2, 0, 2, 1⟩ (by norm_num)).2.2
    (by norm_num) (by norm_num)

/-- Counterexample for C9: the in-extent point (x, y) = (0.5, 0.5) of extent
(0, 2, 0, 2) at resolution 1 is written to row 0 by `rasterize_bev`
(row = ⌊(y - ymin)/res⌋) but to row 1 by `convert_laz_to_intensity_png`
(row = ⌊(ymax - y)/res⌋), refuting the single-vertical-convention claim. -/
theorem c9_counterexample :
    inExtent ⟨0, 2, 0, 2, 1⟩ ⟨1/2, 1/2, 0, 1⟩ = true ∧
    pixelY ⟨0, 2, 0, 2, 1⟩ ⟨1/2, 1/2, 0, 1⟩ = 0 ∧
    lazPixelY 2 1 ⟨1/2, 1/2, 0, 1⟩ = 1 := by
  refine ⟨by norm_num [inExtent], ?_, ?_⟩
  · norm_num [pixelY, rawPixelY, npClip, bevHeight, pyInt]
  · norm_num [lazPixelY, pyInt]

/-- Cell-level description of the mean reducer of `rasterize_bev`. -/
theorem rasterize_bev_mean_cell (cfg : BevConfig) (pts : List Pt) (r c : ℤ) :
    rasterize_bev pts cfg .mean r c =
      if 0 < (cellHits cfg r c pts).length
      then (cellHits cfg r c pts).sum / ((cellHits cfg r c pts).length : ℚ)
      else 0 := by
  have hs := foldl_updateCell (· + ·) cfg (pts.filter (fun p => inExtent cfg p))
    zeroGrid r c
  have hc := foldl_stepCount cfg (pts.filter (fun p => inExtent cfg p))
    (fun _ _ => 0) r c
  rw [foldl_add_eq_sum] at hs
  simp only [rasterize_bev]
  rw [hs, hc]
  simp only [zeroGrid, zero_add, cellHits, List.length_map]
  by_cases h0 : 0 <
      ((pts.filter (fun p => inExtent cfg p)).filter
        (fun p => decide (pixelY cfg p = r ∧ pixelX cfg p = c))).length
  · rw [if_pos h0, if_pos h0]
  · rw [if_neg h0, if_neg h0]
    have hnil : ((pts.filter (fun p => inExtent cfg p)).filter
        (fun p => decide (pixelY cfg p = r ∧ pixelX cfg p = c))) = [] :=
      List.length_eq_zero.mp (by omega)
    rw [hnil]
    rfl

/-- C4: with the max reducer, each cell of the `rasterize_bev` output is the
maximum of the initial 0 and the intensities of the in-extent points mapped
to that cell, and the output grid is invariant under any permutation of the
frame's input points. -/
theorem c4_max_reducer :
    (∀ (cfg : BevConfig) (pts : List Pt) (r c : ℤ),
       rasterize_bev pts cfg .max r c = (cellHits cfg r c pts).foldl max 0) ∧
    (∀ (cfg : BevConfig) (l l' : List Pt), l.Perm l' →
       rasterize_bev l cfg .max = rasterize_bev l' cfg .max) := by
  constructor
  · intro cfg pts r c
    simpa [cellHits, zeroGrid] using
      foldl_updateCell max cfg (pts.filter (fun p => inExtent cfg p)) zeroGrid r c
  · intro cfg l l' h
    show (l.filter (fun p => inExtent cfg p)).foldl (updateCell max cfg) zeroGrid =
      (l'.filter (fun p => inExtent cfg p)).foldl (updateCell max cfg) zeroGrid
    exact @List.Perm.foldl_eq _ _ (updateCell max cfg) _ _
      ⟨fun g p q => updateCell_right_comm max
        (fun x a b => by rw [max_assoc, max_comm a b, ← max_assoc]) cfg g p q⟩
      (h.filter _) zeroGrid

/-- The spec's three-point example: all three points land in cell (0, 0) of
the 1 × 1 grid over extent (0, 1, 0, 1) at resolution 1. -/
theorem cellHits_example :
    cellHits ⟨0, 1, 0, 1, 1⟩ 0 0
        [⟨1/2, 1/2, 0, 10⟩, ⟨1/2, 1/2, 0, 200⟩, ⟨1/2, 1/2, 0, 50⟩] =
      [10, 200, 50] := by
  norm_num [cellHits, inExtent, pixelX, pixelY, rawPixelX, rawPixelY, npClip,
    bevWidth, bevHeight, pyInt, List.filter_cons]

/-- Witness for C4: three co-cell points with intensities [10, 200, 50] give
cell value 200, and swapping the first two points leaves the grid unchanged. -/
theorem c4_max_reducer_witness :
    rasterize_bev [⟨1/2, 1/2, 0, 10⟩, ⟨1/2, 1/2, 0, 200⟩, ⟨1/2, 1/2, 0, 50⟩]
        ⟨0, 1, 0, 1, 1⟩ .max 0 0 = 200 ∧
    rasterize_bev [⟨1/2, 1/2, 0, 10⟩, ⟨1/2, 1/2, 0, 200⟩, ⟨1/2, 1/2, 0, 50⟩]
        ⟨0, 1, 0, 1, 1⟩ .max =
      rasterize_bev [⟨1/2, 1/2, 0, 200⟩, ⟨1/2, 1/2, 0, 10⟩, ⟨1/2, 1/2, 0, 50⟩]
        ⟨0, 1, 0, 1, 1⟩ .max := by
  constructor
  · rw [c4_max_reducer.1, cellHits_example]
    norm_num
  · exact c4_max_reducer.2 _ _ _
      (List.Perm.swap (⟨1/2, 1/2, 0, 200⟩ : Pt) (⟨1/2, 1/2, 0, 10⟩ : Pt)
        [(⟨1/2, 1/2, 0, 50⟩ : Pt)])

/-- C5: with the mean reducer, every cell of the `rasterize_bev` output whose
in-extent hit count is positive holds the sum of the hitting intensities
divided by their count, and every cell with no hits stays 0. -/
theorem c5_mean_reducer :
    ∀ (cfg : BevConfig) (pts : List Pt) (r c : ℤ),
      (0 < (cellHits cfg r c pts).length →
         rasterize_bev pts cfg .mean r c =
           (cellHits cfg r c pts).sum / ((cellHits cfg r c pts).length : ℚ)) ∧
      ((cellHits cfg r c pts).length = 0 →
         rasterize_bev pts cfg .mean r c = 0) := by
  intro cfg pts r c
  rw [rasterize_bev_mean_cell]
  constructor
  · intro h; rw [if_pos h]
  · intro h; rw [if_neg (by omega)]

/-- Witness for C5: the three co-cell intensities [10, 200, 50] average to
260/3, which is within one unit of the spec's 86.667. -/
theorem c5_mean_reducer_witness :
    rasterize_bev [⟨1/2, 1/2, 0, 10⟩, ⟨1/2, 1/2, 0, 200⟩, ⟨1/2, 1/2, 0, 50⟩]
        ⟨0, 1, 0, 1, 1⟩ .mean 0 0 = 260 / 3 ∧
    |(260:ℚ) / 3 - 86667 / 1000| ≤ 1 := by
  constructor
  · have h := (c5_mean_reducer ⟨0, 1, 0, 1, 1⟩
      [⟨1/2, 1/2, 0, 10⟩, ⟨1/2, 1/2, 0, 200⟩, ⟨1/2, 1/2, 0, 50⟩] 0 0).1
      (by rw [cellHits_example]; norm_num)
    rw [h, cellHits_example]
    norm_num
  · rw [abs_le]
    norm_num

-- ### Composite accumulation (make_bev_intensity.py main, lines 385-393)

/-- Elementwise `np.maximum(composite_grid, intensity_grid)`. -/
def mergeMax (a b : Grid) : Grid := fun r c => max (a r c) (b r c)

/-- Elementwise `(composite_grid + intensity_grid) / 2.0`. -/
def mergeMean (a b : Grid) : Grid := fun r c => (a r c + b r c) / 2

/-- One loop iteration of composite mode: the first frame replaces the
`None` accumulator by a copy of its grid, later frames are merged with the
selected reducer. -/
def compositeStep (reducer : Reducer) (acc : Option Grid) (g : Grid) : Option Grid :=
  match acc with
  | none => some g
  | some cg =>
    match reducer with
    | .max => some (mergeMax cg g)
    | .mean => some (mergeMean cg g)

/-- Composite accumulation over the per-frame grids of a run, in frame
order, starting from `composite_grid = None`. -/
def compositeFold (reducer : Reducer) (gs : List Grid) : Option Grid :=
  gs.foldl (compositeStep reducer) none

/-- Cellwise maximum of a nonempty family of grids `hd :: tl`. -/
def maxFoldGrid (hd : Grid) (tl : List Grid) : Grid :=
  fun r c => (tl.map (fun g => g r c)).foldl max (hd r c)

theorem compositeFold_some (reducer : Reducer) (merge : Grid → Grid → Grid)
    (hm : ∀ a b, compositeStep reducer (some a) b = some (merge a b))
    (gs : List Grid) (a : Grid) :
    gs.foldl (compositeStep reducer) (some a) = some (gs.foldl merge a) := by
  induction gs generalizing a with
  | nil => rfl
  | cons g gs ih => rw [List.foldl_cons, List.foldl_cons, hm, ih]

theorem foldl_mergeMax_cell (gs : List Grid) (a : Grid) (r c : ℤ) :
    (gs.foldl mergeMax a) r c = (gs.map (fun g => g r c)).foldl max (a r c) := by
  induction gs generalizing a with
  | nil => rfl
  | cons g gs ih => rw [List.foldl_cons, List.map_cons, List.foldl_cons, ih]; rfl

-- ### Facts about `List.foldl max`

theorem le_foldl_max (l : List ℚ) (a : ℚ) : a ≤ l.foldl max a := by
  induction l generalizing a with
  | nil => exact le_refl a
  | cons x l ih => exact le_trans (le_max_left a x) (ih (max a x))

theorem mem_le_foldl_max (l : List ℚ) (a : ℚ) : ∀ x ∈ l, x ≤ l.foldl max a := by
  induction l generalizing a with
  | nil => intro x hx; cases hx
  | cons y l ih =>
    intro x hx
    rcases List.mem_cons.mp hx with h | h
    · subst h; exact le_trans (le_max_right a x) (le_foldl_max l (max a x))
    · exact ih (max a y) x h

theorem foldl_max_mem (l : List ℚ) (a : ℚ) :
    l.foldl max a = a ∨ l.foldl max a ∈ l := by
  induction l generalizing a with
  | nil => exact Or.inl rfl
  | cons x l ih =>
    rcases ih (max a x) with h | h
    · rcases le_total a x with hax | hax
      · right
        rw [List.foldl_cons, h, max_eq_right hax]
        exact List.mem_cons_self x l
      · left
        rw [List.foldl_cons, h, max_eq_left hax]
    · right
      rw [List.foldl_cons]
      exact List.mem_cons_of_mem x h

/-- C7: in composite mode with the max reducer, the final composite grid is
the elementwise maximum across all per-frame grids — every frame's cell is
dominated and the composite cell value is attained by some frame — and the
two-grid merge `np.maximum` is commutative and associative, so the merge
order does not matter. -/
theorem c7_composite_max :
    (∀ (hd : Grid) (tl : List Grid),
       compositeFold .max (hd :: tl) = some (maxFoldGrid hd tl)) ∧
    (∀ (hd : Grid) (tl : List Grid) (g : Grid), g ∈ hd :: tl →
       ∀ r c : ℤ, g r c ≤ maxFoldGrid hd tl r c) ∧
    (∀ (hd : Grid) (tl : List Grid) (r c : ℤ),
       maxFoldGrid hd tl r c ∈ (hd :: tl).map (fun g => g r c)) ∧
    (∀ a b : Grid, mergeMax a b = mergeMax b a) ∧
    (∀ a b d : Grid, mergeMax (mergeMax a b) d = mergeMax a (mergeMax b d)) := by
  refine ⟨?_, ?_, ?_, ?_, ?_⟩
  · intro hd tl
    show List.foldl (compositeStep .max) (some hd) tl = _
    rw [compositeFold_some .max mergeMax (fun a b => rfl) tl hd]
    congr 1
    funext r c
    exact foldl_mergeMax_cell tl hd r c
  · intro hd tl g hg r c
    rcases List.mem_cons.mp hg with h | h
    · subst h; exact le_foldl_max _ _
    · exact mem_le_foldl_max _ _ _ (List.mem_map_of_mem (fun g => g r c) h)
  · intro hd tl r c
    rcases foldl_max_mem (tl.map (fun g => g r c)) (hd r c) with h | h
    · rw [List.map_cons, maxFoldGrid, h]; exact List.mem_cons_self _ _
    · rw [List.map_cons, maxFoldGrid]; exact List.mem_cons_of_mem _ h
  · intro a b; funext r c; exact max_comm (a r c) (b r c)
  · intro a b d; funext r c; exact max_assoc (a r c) (b r c) (d r c)

/-- Witness for C7: on two concrete constant grids the composite is the
elementwise maximum and dominates the second frame. -/
theorem c7_composite_max_witness :
    compositeFold .max [(fun _ _ => (3:ℚ) : Grid), (fun _ _ => (5:ℚ) : Grid)] =
        some (maxFoldGrid (fun _ _ => (3:ℚ)) [(fun _ _ => (5:ℚ) : Grid)]) ∧
    (fun _ _ => (5:ℚ) : Grid) 0 0 ≤
        maxFoldGrid (fun _ _ => (3:ℚ)) [(fun _ _ => (5:ℚ) : Grid)] 0 0 :=
  ⟨c7_composite_max.1 _ _,
   c7_composite_max.2.1 _ _ _ (List.mem_cons_of_mem _ (List.mem_cons_self _ _)) 0 0⟩

-- ### Composite mean: recency-weighted average

/-- Weight with which the (0-based) frame k out of n contributes to the
composite-mean grid: frames 0 and 1 weigh 1/2^(n-1), frame k ≥ 1 weighs
1/2^(n-k). -/
def meanWeight (n k : ℕ) : ℚ := if k = 0 then 1 / 2 ^ (n - 1) else 1 / 2 ^ (n - k)

/-- Cellwise `meanWeight`-weighted sum of a run's per-frame grids. -/
def weightedMeanCell (gs : List Grid) (r c : ℤ) : ℚ :=
  ((List.range gs.length).map
    (fun k => meanWeight gs.length k * (gs.getD k zeroGrid) r c)).sum

/-- Cellwise true multi-frame mean of a run's per-frame grids. -/
def trueMeanCell (gs : List Grid) (r c : ℤ) : ℚ :=
  (gs.map (fun g => g r c)).sum / (gs.length : ℚ)

/-- The all-ones grid, used as a distinguishing final frame. -/
def oneGrid : Grid := fun _ _ => 1

theorem sum_map_div_two (l : List ℕ) (f : ℕ → ℚ) :
    (l.map (fun k => f k / 2)).sum = (l.map f).sum / 2 := by
  induction l with
  | nil => simp
  | cons x l ih => simp [ih]; ring

theorem meanWeight_succ (n k : ℕ) (hn : 1 ≤ n) (hk : k < n) :
    meanWeight (n + 1) k = meanWeight n k / 2 := by
  unfold meanWeight
  by_cases h : k = 0
  · subst h
    rw [if_pos rfl, if_pos rfl]
    have h1 : n + 1 - 1 = (n - 1) + 1 := by omega
    rw [h1, pow_succ]
    ring
  · rw [if_neg h, if_neg h]
    have h1 : n + 1 - k = (n - k) + 1 := by omega
    rw [h1, pow_succ]
    ring

theorem meanWeight_last (n : ℕ) (hn : 1 ≤ n) : meanWeight (n + 1) n = 1 / 2 := by
  unfold meanWeight
  rw [if_neg (by omega)]
  have h1 : n + 1 - n = 1 := by omega
  rw [h1, pow_one]

theorem weightedMeanCell_snoc (gs : List Grid) (hne : gs ≠ []) (g : Grid)
    (r c : ℤ) :
    weightedMeanCell (gs ++ [g]) r c = (weightedMeanCell gs r c + g r c) / 2 := by
  have hn : 1 ≤ gs.length := List.length_pos.mpr hne
  unfold weightedMeanCell
  rw [List.length_append]
  simp only [List.length_singleton]
  rw [List.range_succ, List.map_append, List.sum_append]
  have hlast : ([gs.length].map
      (fun k => meanWeight (gs.length + 1) k * ((gs ++ [g]).getD k zeroGrid) r c)).sum =
      g r c / 2 := by
    rw [List.map_singleton, List.getD_append_right gs [g] zeroGrid gs.length (le_refl _)]
    simp only [Nat.sub_self, List.getD, List.get?_eq_getElem?, List.getElem?_cons_zero,
      Option.getD_some]
    rw [meanWeight_last gs.length hn, List.sum_singleton]
    ring
  have hinit : ((List.range gs.length).map
      (fun k => meanWeight (gs.length + 1) k * ((gs ++ [g]).getD k zeroGrid) r c)).sum =
      ((List.range gs.length).map
        (fun k => meanWeight gs.length k * (gs.getD k zeroGrid) r c)).sum / 2 := by
    rw [List.map_congr_left (g := fun k =>
        (meanWeight gs.length k * (gs.getD k zeroGrid) r c) / 2)]
    · exact sum_map_div_two _ _
    · intro k hk
      have hklt : k < gs.length := List.mem_range.mp hk
      rw [meanWeight_succ gs.length k hn hklt,
        List.getD_append gs [g] zeroGrid k hklt]
      ring
  rw [hlast, hinit]
  ring

theorem foldl_mergeMean_cell (tl : List Grid) (hd : Grid) (r c : ℤ) :
    (tl.foldl mergeMean hd) r c = weightedMeanCell (hd :: tl) r c := by
  induction tl using List.reverseRecOn with
  | nil =>
    simp only [List.foldl_nil, weightedMeanCell, List.length_cons, List.length_nil,
      zero_add, List.range_succ, List.range_zero, List.nil_append, List.map_cons,
      List.map_nil, List.sum_cons, List.sum_nil, List.getD]
    simp [meanWeight]
  | append_singleton tl g ih =>
    rw [List.foldl_append, List.foldl_cons, List.foldl_nil]
    have hcons : hd :: (tl ++ [g]) = (hd :: tl) ++ [g] := by simp
    rw [hcons, weightedMeanCell_snoc (hd :: tl) (by simp) g r c, ← ih]
    rfl

theorem compositeFold_mean_eq (hd : Grid) (tl : List Grid) :
    compositeFold .mean (hd :: tl) =
      some (fun r c => weightedMeanCell (hd :: tl) r c) := by
  show List.foldl (compositeStep .mean) (some hd) tl = _
  rw [compositeFold_some .mean mergeMean (fun a b => rfl) tl hd]
  congr 1
  funext r c
  exact foldl_mergeMean_cell tl hd r c

theorem weightedMeanCell_last_one (n : ℕ) (hn : 2 ≤ n) (r c : ℤ) :
    weightedMeanCell (List.replicate (n - 1) zeroGrid ++ [oneGrid]) r c = 1 / 2 := by
  have hlen : (List.replicate (n - 1) zeroGrid ++ [oneGrid]).length = n := by
    simp only [List.length_append, List.length_replicate, List.length_singleton]
    omega
  unfold weightedMeanCell
  rw [hlen]
  have hr : List.range n = List.range (n - 1) ++ [n - 1] := by
    have hsplit : n = (n - 1) + 1 := by omega
    conv_lhs => rw [hsplit]
    rw [List.range_succ]
  rw [hr, List.map_append, List.sum_append]
  have hinit : ((List.range (n - 1)).map (fun k =>
      meanWeight n k *
        ((List.replicate (n - 1) zeroGrid ++ [oneGrid]).getD k zeroGrid) r c)).sum = 0 := by
    apply List.sum_eq_zero
    intro x hx
    rcases List.mem_map.mp hx with ⟨k, hk, hxk⟩
    have hklt : k < n - 1 := List.mem_range.mp hk
    rw [← hxk, List.getD_append _ _ zeroGrid k (by simpa using hklt)]
    have hz : (List.replicate (n - 1) zeroGrid).getD k zeroGrid = zeroGrid := by
      rw [List.getD_eq_getElem?_getD, List.getElem?_replicate, if_pos hklt]
      rfl
    rw [hz]
    simp [zeroGrid]
  have hlast : ([n - 1].map (fun k =>
      meanWeight n k *
        ((List.replicate (n - 1) zeroGrid ++ [oneGrid]).getD k zeroGrid) r c)).sum =
      1 / 2 := by
    rw [List.map_singleton, List.sum_singleton,
      List.getD_append_right _ _ zeroGrid (n - 1) (by simp)]
    simp only [List.length_replicate, Nat.sub_self, List.getD, List.get?_eq_getElem?,
      List.getElem?_cons_zero, Option.getD_some]
    rw [meanWeight, if_neg (by omega)]
    have hnn : n - (n - 1) = 1 := by omega
    rw [hnn, pow_one]
    simp [oneGrid]
  rw [hinit, hlast, zero_add]

/-- C8: in composite mode with the mean reducer, each frame's per-frame grid
is folded in by pairwise averaging (`composite = (composite + frame) / 2`),
so the composite cell value is the `meanWeight`-weighted sum of the frames'
cells; frame k of n (0-based, k ≥ 2) carries weight 1/2^(n-k), later frames
carry strictly greater weight than earlier ones (from frame 1 on), and for
every n ≥ 3 there is a run whose composite differs from the true multi-frame
mean. -/
theorem c8_composite_mean :
    (∀ (hd : Grid) (tl : List Grid),
       compositeFold .mean (hd :: tl) =
         some (fun r c => weightedMeanCell (hd :: tl) r c)) ∧
    (∀ n k : ℕ, 2 ≤ k → k < n → meanWeight n k = 1 / 2 ^ (n - k)) ∧
    (∀ n k j : ℕ, 1 ≤ k → k < j → j < n → meanWeight n k < meanWeight n j) ∧
    (∀ n : ℕ, 3 ≤ n → ∃ gs : List Grid, gs.length = n ∧
       compositeFold .mean gs ≠ some (fun r c => trueMeanCell gs r c)) := by
  refine ⟨compositeFold_mean_eq, ?_, ?_, ?_⟩
  · intro n k h2 _
    rw [meanWeight, if_neg (by omega)]
  · intro n k j hk hkj hjn
    rw [meanWeight, if_neg (by omega), meanWeight, if_neg (by omega)]
    rw [div_lt_div_iff₀ (by positivity) (by positivity)]
    rw [one_mul, one_mul]
    exact pow_lt_pow_right₀ (by norm_num) (by omega)
  · intro n hn
    refine ⟨List.replicate (n - 1) zeroGrid ++ [oneGrid], ?_, ?_⟩
    · simp only [List.length_append, List.length_replicate, List.length_singleton]
      omega
    · intro heq
      have hcons : List.replicate (n - 1) zeroGrid ++ [oneGrid] =
          zeroGrid :: (List.replicate (n - 2) zeroGrid ++ [oneGrid]) := by
        have h1 : n - 1 = (n - 2) + 1 := by omega
        rw [h1, List.replicate_succ, List.cons_append]
      rw [hcons, compositeFold_mean_eq] at heq
      have hfun := Option.some.injEq _ _ ▸ heq
      have hfun' : (fun r c => weightedMeanCell
          (zeroGrid :: (List.replicate (n - 2) zeroGrid ++ [oneGrid])) r c) =
          (fun r c => trueMeanCell
            (List.replicate (n - 1) zeroGrid ++ [oneGrid]) r c) := by
        have := Option.some_injective _ heq
        rw [hcons]
        exact this
      have hcell := congrFun (congrFun hfun' 0) 0
      rw [← hcons] at hcell
      have hwc : weightedMeanCell (List.replicate (n - 1) zeroGrid ++ [oneGrid]) 0 0 =
          1 / 2 := weightedMeanCell_last_one n (by omega) 0 0
      have htc : trueMeanCell (List.replicate (n - 1) zeroGrid ++ [oneGrid]) 0 0 =
          1 / (n : ℚ) := by
        unfold trueMeanCell
        rw [List.map_append, List.map_replicate, List.sum_append]
        simp only [List.map_singleton, List.sum_singleton, oneGrid, zeroGrid,
          List.sum_replicate, smul_zero, zero_add, List.length_append,
          List.length_replicate, List.length_singleton]
        have : n - 1 + 1 = n := by omega
        rw [this]
      rw [hwc, htc] at hcell
      have hn3 : (3:ℚ) ≤ (n : ℚ) := by exact_mod_cast hn
      have hpos : (0:ℚ) < (n : ℚ) := by linarith
      have : (n : ℚ) = 2 := by
        field_simp at hcell
        linarith
      linarith

/-- Witness for C8: in a 4-frame run, frame 2 carries weight 1/4 and less
than frame 3; a concrete 3-frame run differs from the true mean. -/
theorem c8_composite_mean_witness :
    meanWeight 4 2 = 1 / 4 ∧
    meanWeight 4 2 < meanWeight 4 3 ∧
    (∃ gs : List Grid, gs.length = 3 ∧
       compositeFold .mean gs ≠ some (fun r c => trueMeanCell gs r c)) := by
  refine ⟨?_, c8_composite_mean.2.2.1 4 2 3 (by norm_num) (by norm_num) (by norm_num),
    c8_composite_mean.2.2.2 3 (by norm_num)⟩
  rw [c8_composite_mean.2.1 4 2 (by norm_num) (by norm_num)]
  norm_num

-- ### Normalization (make_bev_intensity.py, lines 254-284)

/-- NumPy `astype(np.uint8)` on a nonnegative float: truncate toward zero
and wrap modulo 256. -/
def toUint8 (q : ℚ) : ℕ := (pyInt q).toNat % 256

/-- NumPy `np.clip` on floats: `min (max q lo) hi`. -/
def npClipQ (q lo hi : ℚ) : ℚ := min (max q lo) hi

/-- All cells of a 2D grid in row-major (C) order, the order in which NumPy
reductions such as `np.min`, `np.max` and boolean masking traverse it. -/
def gridCells (g : List (List ℚ)) : List ℚ := g.flatten

/-- The cells selected by the boolean mask `intensity_grid > 0`. -/
def positives (g : List (List ℚ)) : List ℚ :=
  (gridCells g).filter (fun q => decide (0 < q))

/-- `np.zeros_like(intensity_grid)` after the uint8 cast. -/
def zerosImg (g : List (List ℚ)) : List (List ℕ) :=
  g.map (fun row => row.map (fun _ => 0))

/-- NumPy `np.percentile(a, q)` with the default linear interpolation: sort
the data, take the virtual index `q/100 * (n-1)` and interpolate linearly
between the two neighbouring order statistics. -/
def npPercentile (l : List ℚ) (q : ℚ) : ℚ :=
  let s := List.insertionSort (· ≤ ·) l
  let pos := q / 100 * ((s.length : ℚ) - 1)
  let i := (⌊pos⌋).toNat
  let x0 := s.getD i 0
  let x1 := s.getD (i + 1) x0
  x0 + (pos - (⌊pos⌋ : ℚ)) * (x1 - x0)

/-- The `--normalize-method` choice of `make_bev_intensity.py`. -/
inductive NormMethod
  | minmax
  | percentile

/-- Per-cell output of the percentile branch:
`np.clip((v - p1) / (p99 - p1) * 255, 0, 255)` cast to uint8. -/
def pctCell (p1 p99 v : ℚ) : ℕ :=
  toUint8 (npClipQ ((v - p1) / (p99 - p1) * 255) 0 255)

/-- Shallow embedding of `normalize_intensity` (make_bev_intensity.py, lines
254-284).  `none` models an uncaught NumPy exception: `np.min`/`np.max` of an
empty array in the minmax branch, `np.percentile` of an empty selection in
the percentile branch. -/
def normalize_intensity (g : List (List ℚ)) (method : NormMethod) :
    Option (List (List ℕ)) :=
  match method with
  | .minmax =>
    match gridCells g with
    | [] => none
    | v :: vs =>
      let lo := vs.foldl min v
      let hi := vs.foldl max v
      if lo < hi then
        some (g.map (fun row => row.map (fun q => toUint8 ((q - lo) / (hi - lo) * 255))))
      else
        some (zerosImg g)
  | .percentile =>
    match positives g with
    | [] => none
    | v :: vs =>
      let p1 := npPercentile (v :: vs) 1
      let p99 := npPercentile (v :: vs) 99
      if p1 < p99 then
        some (g.map (fun row => row.map (fun q => pctCell p1 p99 q)))
      else
        some (zerosImg g)

theorem foldl_min_le (l : List ℚ) (a : ℚ) : l.foldl min a ≤ a := by
  induction l generalizing a with
  | nil => exact le_refl a
  | cons x l ih => exact le_trans (ih (min a x)) (min_le_left a x)

theorem mem_foldl_min_le (l : List ℚ) (a : ℚ) : ∀ x ∈ l, l.foldl min a ≤ x := by
  induction l generalizing a with
  | nil => intro x hx; cases hx
  | cons y l ih =>
    intro x hx
    rcases List.mem_cons.mp hx with h | h
    · subst h; exact le_trans (foldl_min_le l (min a x)) (min_le_right a x)
    · exact ih (min a y) x h

theorem normalize_shape (g : List (List ℚ)) (method : NormMethod)
    (out : List (List ℕ)) (hout : normalize_intensity g method = some out) :
    out.map List.length = g.map List.length := by
  have hmap : ∀ f : ℚ → ℕ,
      ((g.map (fun row => row.map f)).map List.length) = g.map List.length := by
    intro f
    rw [List.map_map]
    exact List.map_congr_left (fun row _ => by simp)
  cases method with
  | minmax =>
    rcases hg : gridCells g with _ | ⟨v, vs⟩ <;>
      simp only [normalize_intensity, hg] at hout
    · cases hout
    · by_cases h : vs.foldl min v < vs.foldl max v
      · rw [if_pos h, Option.some.injEq] at hout
        rw [← hout]; exact hmap _
      · rw [if_neg h, Option.some.injEq] at hout
        rw [← hout]; exact hmap _
  | percentile =>
    rcases hg : positives g with _ | ⟨v, vs⟩ <;>
      simp only [normalize_intensity, hg] at hout
    · cases hout
    · by_cases h : npPercentile (v :: vs) 1 < npPercentile (v :: vs) 99
      · rw [if_pos h, Option.some.injEq] at hout
        rw [← hout]; exact hmap _
      · rw [if_neg h, Option.some.injEq] at hout
        rw [← hout]; exact hmap _

/-- C6 (amended): on any grid with at least one cell, minmax normalization
takes lo/hi as the minimum/maximum over all cells; when hi > lo each cell v
becomes trunc((v - lo)/(hi - lo) * 255) — NumPy's uint8 cast truncates, it
does not round, and the scaled values already lie in [0, 255] so the claimed
clamp is vacuous; when hi ≤ lo (uniformly constant grid, including all-zero)
the output is the all-zero image, not an error; the shape is always
preserved. -/
theorem c6_minmax_normalization (g : List (List ℚ)) (v : ℚ) (vs : List ℚ)
    (hg : gridCells g = v :: vs) :
    (∀ x ∈ gridCells g, vs.foldl min v ≤ x ∧ x ≤ vs.foldl max v) ∧
    (vs.foldl min v < vs.foldl max v →
       normalize_intensity g .minmax =
         some (g.map (fun row => row.map (fun q =>
           toUint8 ((q - vs.foldl min v) / (vs.foldl max v - vs.foldl min v) * 255))))) ∧
    (vs.foldl max v ≤ vs.foldl min v →
       normalize_intensity g .minmax = some (zerosImg g)) ∧
    (∀ out, normalize_intensity g .minmax = some out →
       out.map List.length = g.map List.length) := by
  refine ⟨?_, ?_, ?_, fun out hout => normalize_shape g .minmax out hout⟩
  · intro x hx
    rw [hg] at hx
    rcases List.mem_cons.mp hx with h | h
    · subst h
      exact ⟨foldl_min_le vs x, le_foldl_max vs x⟩
    · exact ⟨mem_foldl_min_le vs v x h, mem_le_foldl_max vs v x h⟩
  · intro h
    simp only [normalize_intensity, hg]
    rw [if_pos h]
  · intro h
    simp only [normalize_intensity, hg]
    rw [if_neg (not_lt.mpr h)]

/-- Witness for C6: the grid [[0, 100], [0, 0]], whose only nonzero cell is
100, normalizes to [[0, 255], [0, 0]]. -/
theorem c6_minmax_normalization_witness :
    normalize_intensity [[(0:ℚ), 100], [0, 0]] .minmax = some [[0, 255], [0, 0]] := by
  have h := (c6_minmax_normalization [[(0:ℚ), 100], [0, 0]] 0 [100, 0, 0] rfl).2.1
    (by norm_num [List.foldl_cons, List.foldl_nil, min_def, max_def])
  rw [h]
  norm_num [toUint8, pyInt]
  decide

/-- Counterexample for C6: minmax normalization of [[0, 1, 128]] yields
[[0, 1, 255]] — the middle cell truncates 255/128 ≈ 1.99 down to 1 — whereas
the claimed round((v - lo)/(hi - lo) * 255) gives 2; and on the empty grid
`np.min` raises (modelled as `none`) instead of producing an image. -/
theorem c6_counterexample :
    normalize_intensity [[(0:ℚ), 1, 128]] .minmax = some [[0, 1, 255]] ∧
    round (((1:ℚ) - 0) / (128 - 0) * 255) = 2 ∧
    normalize_intensity ([] : List (List ℚ)) .minmax = none := by
  refine ⟨?_, ?_, rfl⟩
  · have hg : gridCells [[(0:ℚ), 1, 128]] = 0 :: [1, 128] := rfl
    simp only [normalize_intensity, hg]
    rw [if_pos (by norm_num [List.foldl_cons, List.foldl_nil, min_def, max_def])]
    norm_num [List.foldl_cons, List.foldl_nil, min_def, max_def, toUint8, pyInt]
    decide
  · rw [round_eq]
    norm_num

/-- C3 (amended): percentile normalization computes p1 and p99 over the
cells with value > 0; when that subset is empty, `np.percentile` raises
(modelled as `none`) instead of returning an all-zero image; otherwise it
never raises: it returns the all-zero image when p99 ≤ p1 and otherwise
`clip((grid - p1)/(p99 - p1) * 255, 0, 255)` truncated to uint8, always with
the shape of the input grid. -/
theorem c3_percentile_normalization (g : List (List ℚ)) :
    (positives g = [] → normalize_intensity g .percentile = none) ∧
    (positives g ≠ [] →
       (npPercentile (positives g) 99 ≤ npPercentile (positives g) 1 →
          normalize_intensity g .percentile = some (zerosImg g)) ∧
       (npPercentile (positives g) 1 < npPercentile (positives g) 99 →
          normalize_intensity g .percentile =
            some (g.map (fun row => row.map (fun q =>
              pctCell (npPercentile (positives g) 1)
                (npPercentile (positives g) 99) q))))) ∧
    (∀ out, normalize_intensity g .percentile = some out →
       out.map List.length = g.map List.length) := by
  refine ⟨?_, ?_, fun out hout => normalize_shape g .percentile out hout⟩
  · intro hp
    simp only [normalize_intensity, hp]
  · intro hne
    rcases hp : positives g with _ | ⟨v, vs⟩
    · exact absurd hp hne
    constructor
    · intro h99
      simp only [normalize_intensity, hp]
      rw [if_neg (not_lt.mpr h99)]
    · intro h19
      simp only [normalize_intensity, hp]
      rw [if_pos h19]

/-- Witness for C3: the grid [[0, 5]] has positive subset [5], so
p1 = p99 = 5 and the output is the all-zero image of the same shape. -/
theorem c3_percentile_normalization_witness :
    normalize_intensity [[(0:ℚ), 5]] .percentile = some [[0, 0]] := by
  have hp : positives [[(0:ℚ), 5]] = [5] := by
    norm_num [positives, gridCells, List.filter_cons]
  have h99 : npPercentile [(5:ℚ)] 99 ≤ npPercentile [(5:ℚ)] 1 := by
    norm_num [npPercentile, List.insertionSort, List.orderedInsert, List.getD]
  have h := ((c3_percentile_normalization [[(0:ℚ), 5]]).2.1 (by rw [hp]; simp)).1
    (by rw [hp]; exact h99)
  rw [h]
  rfl

/-- Counterexample for C3: on the all-zero grid [[0]] the positive subset is
empty, and percentile normalization raises (`np.percentile` of an empty
array, modelled as `none`) instead of returning the all-zero image the claim
promises. -/
theorem c3_counterexample :
    normalize_intensity [[(0:ℚ)]] .percentile = none ∧
    normalize_intensity [[(0:ℚ)]] .percentile ≠ some (zerosImg [[(0:ℚ)]]) := by
  have hp : positives [[(0:ℚ)]] = [] := by
    norm_num [positives, gridCells, List.filter_cons]
  have h : normalize_intensity [[(0:ℚ)]] .percentile = none := by
    simp only [normalize_intensity, hp]
  exact ⟨h, by rw [h]; simp⟩
